import Mathlib

/-!
Verification of the sync dispatcher of go-filecoin (`src/syncer/dispatcher.go`)
against its natural-language specification.

The Go code is shallowly embedded: Go slices become `List`, the
`container/heap` algorithms are translated function by function, the
dispatcher loop body becomes an explicit step function on a state record,
channel reads become explicit inputs to that step function, and callback /
logging side effects are recorded as explicit events.  Machine `uint64`
arithmetic is `Nat` with `% 2^64` at the operations that can wrap.
-/

set_option autoImplicit false

namespace Syncer

/-- Modelled from the spec: `block.ChainInfo` is external to the dispatcher
core (its Go definition is not part of the sources under verification).  The
spec describes exactly two fields used here: `Head`, an identity value
uniquely naming a candidate chain tip, comparable and hashable (the
dispatcher keys its dedup map by `Head.String()`, so we model the identity
directly by that string); and `Height`, an unsigned integer used purely as
priority. -/
structure ChainInfo where
  head : String
  height : Nat
  deriving DecidableEq, Repr

/-- Source `SyncRequest`: wraps a `block.ChainInfo` (struct
embedding in Go) plus the `index` field maintained for `container/heap`. -/
structure SyncRequest where
  chainInfo : ChainInfo
  index : Int
  deriving DecidableEq, Repr

/-- Go field promotion: `syncReq.Height` reads the embedded `ChainInfo`. -/
def SyncRequest.height (r : SyncRequest) : Nat := r.chainInfo.height

/-- Go field promotion: `syncReq.Head.String()` of the embedded `ChainInfo`. -/
def SyncRequest.head (r : SyncRequest) : String := r.chainInfo.head

instance : Inhabited SyncRequest := ⟨⟨⟨"", 0⟩, 0⟩⟩

/-- The observable content of a request: everything except the heap
bookkeeping field `index` (which `container/heap` mutates freely and which
carries no information for callers). -/
def SyncRequest.plain (r : SyncRequest) : String × Nat := (r.head, r.height)

/-- Source `rawQueue`: a Go slice of `SyncRequest`. -/
abbrev RawQueue : Type := List SyncRequest

namespace RawQueue

/-- Read `rq[i]`; inside the heap algorithms every access is in bounds
(out-of-bounds would panic in Go and never happens), so a default value is
only a totality device. -/
def getE (rq : RawQueue) (i : Nat) : SyncRequest :=
  List.getD rq i default

/-- Source `rawQueue.Len`. -/
def len (rq : RawQueue) : Nat := List.length rq

/-- Source `rawQueue.Less i j`: `rq[i].Height > rq[j].Height` (greater-than
so that the heap's Pop yields the highest priority). -/
def less (rq : RawQueue) (i j : Nat) : Bool :=
  decide ((rq.getE j).height < (rq.getE i).height)

/-- Source `rawQueue.Swap i j`: swaps the two slots, then assigns
`rq[i].index = j` and `rq[j].index = i` (the source writes the indices in
this crossed way; `index` is never read by anything in this program). -/
def swap (rq : RawQueue) (i j : Nat) : RawQueue :=
  let a := rq.getE i
  let b := rq.getE j
  (List.set (List.set rq i { b with index := j }) j { a with index := i })

/-- Source `rawQueue.Push`: appends, stamping `index` with the old length. -/
def push (rq : RawQueue) (x : SyncRequest) : RawQueue :=
  rq ++ [{ x with index := Int.ofNat rq.len }]

/-- Source `rawQueue.Pop`: removes and returns the last element, setting its
`index` to `-1` "for safety".  Only called on a non-empty queue (guarded by
`TargetQueue.Pop`; in Go the unguarded call would panic). -/
def pop (rq : RawQueue) : SyncRequest × RawQueue :=
  ({ (List.getLast? rq).getD default with index := -1 }, List.dropLast rq)

end RawQueue

/-- Function `up` of Go's `container/heap` (the source says "Heavily inspired by
https://golang.org/pkg/container/heap/" and calls into that package): sift
the element at `j` up while it is `Less` than its parent.  The Go loop stops
when `i == j`, i.e. at the root (in Go `(0-1)/2 == 0` by truncated division,
the same value `Nat` subtraction gives here). -/
def up (rq : RawQueue) (j : Nat) : RawQueue :=
  let i := (j - 1) / 2
  if i = j ∨ rq.less j i = false then rq
  else up (rq.swap i j) i
termination_by j
decreasing_by
  rename_i h
  rw [not_or] at h
  omega

/-- The child-selection step of Go's `down`: take the
right child `j1+1` when it exists and is `Less` than (priority above) the
left child `j1`, otherwise the left child. -/
def RawQueue.pickChild (rq : RawQueue) (j1 n : Nat) : Nat :=
  if j1 + 1 < n ∧ rq.less (j1 + 1) j1 = true then j1 + 1 else j1

/-- Function `down` of Go's `container/heap`: sift the element at `i` down
within the heap prefix of size `n`, always descending to the selected child.  Go
additionally guards `j1 < 0` against machine-integer overflow of `2*i+1`,
which cannot occur on `Nat`.  Go's `down` returns a `Bool` that every caller
in this program ignores, so it is omitted. -/
def down (rq : RawQueue) (i n : Nat) : RawQueue :=
  let j1 := 2 * i + 1
  if n ≤ j1 then rq
  else
    let j := rq.pickChild j1 n
    if rq.less j i = false then rq
    else down (rq.swap i j) j n
termination_by n - i
decreasing_by
  rename_i hn _
  simp only [RawQueue.pickChild] at *
  split <;> omega

/-- Loop of Go's `heap.Init`: `for i := n/2 - 1; i >= 0; i--
{ down(h, i, n) }`.  The fuel argument counts the remaining iterations, so
the loop body runs at `i = k` when the fuel is `k+1`. -/
def heapInitLoop (n : Nat) : RawQueue → Nat → RawQueue
  | rq, 0 => rq
  | rq, k + 1 => heapInitLoop n (down rq k n) k

/-- Go's `heap.Init h`: in this program only ever applied to the empty queue. -/
def heapInit (rq : RawQueue) : RawQueue :=
  heapInitLoop rq.len rq (rq.len / 2)

/-- Go's `heap.Push`: append then sift up from the
last position. -/
def heapPush (rq : RawQueue) (x : SyncRequest) : RawQueue :=
  let rq' := rq.push x
  up rq' (rq'.len - 1)

/-- Go's `heap.Pop`: swap the root with the last
element, sift the new root down within the shrunk prefix, then remove the
last element. -/
def heapPop (rq : RawQueue) : SyncRequest × RawQueue :=
  let n := rq.len - 1
  let rq₁ := rq.swap 0 n
  let rq₂ := down rq₁ 0 n
  rq₂.pop

/-- The Go `map[string]struct{}` used as the dedup membership set, modelled
by its key set as a duplicate-free list of keys: inserting an existing key
changes nothing, deleting an absent key changes nothing. -/
def mapInsert (s : List String) (k : String) : List String :=
  if k ∈ s then s else k :: s

/-- Deletion from the modelled `map[string]struct{}`. -/
def mapDelete (s : List String) (k : String) : List String :=
  s.erase k

/-- Source `TargetQueue`: the heap together with the membership
set `targetSet` keyed by `Head.String()`. -/
structure TargetQueue where
  q : RawQueue
  targetSet : List String
  deriving Repr

/-- Source `NewTargetQueue`: empty heap (Go runs `heap.Init` on it), empty
membership set. -/
def NewTargetQueue : TargetQueue :=
  { q := heapInit ([] : List SyncRequest), targetSet := [] }

namespace TargetQueue

/-- Source `TargetQueue.Len`. -/
def Len (tq : TargetQueue) : Nat := tq.q.len

/-- Source `TargetQueue.Push`: drop the request if its `Head` is already a
member, otherwise heap-insert it and mark membership. -/
def Push (tq : TargetQueue) (req : SyncRequest) : TargetQueue :=
  if req.head ∈ tq.targetSet then tq
  else { q := heapPush tq.q req, targetSet := mapInsert tq.targetSet req.head }

/-- Source `TargetQueue.Pop`: on an empty queue return the zero
`SyncRequest` and `false`; otherwise heap-extract the top request, delete
its `Head` from the membership set, and return it with `true`. -/
def Pop (tq : TargetQueue) : SyncRequest × Bool × TargetQueue :=
  if tq.Len = 0 then (default, false, tq)
  else
    let p := heapPop tq.q
    (p.1, true, { q := p.2, targetSet := mapDelete tq.targetSet p.1.head })

end TargetQueue


/-! ### Basic facts about the embedded slice operations -/

/-- Heap priority key of slot `k`: the height stored there. -/
def key (rq : RawQueue) (k : Nat) : Nat := (rq.getE k).height

theorem plain_mk (c : ChainInfo) (i : Int) :
    SyncRequest.plain ⟨c, i⟩ = (c.head, c.height) := rfl

theorem swap_length (rq : RawQueue) (i j : Nat) :
    (rq.swap i j).length = rq.length := by
  simp [RawQueue.swap]

theorem getE_eq_getElem (rq : RawQueue) {k : Nat} (h : k < rq.length) :
    rq.getE k = rq[k] := by
  simp [RawQueue.getE, List.getD_eq_getElem?_getD, List.getElem?_eq_getElem h]

theorem getE_swap (rq : RawQueue) (i j k : Nat)
    (hi : i < rq.length) (hj : j < rq.length) :
    (rq.swap i j).getE k =
      if k = j then ⟨(rq.getE i).chainInfo, Int.ofNat i⟩
      else if k = i then ⟨(rq.getE j).chainInfo, Int.ofNat j⟩
      else rq.getE k := by
  show RawQueue.getE ((rq.set i ⟨(rq.getE j).chainInfo, Int.ofNat j⟩).set j
      ⟨(rq.getE i).chainInfo, Int.ofNat i⟩) k = _
  unfold RawQueue.getE
  rcases eq_or_ne k j with rfl | hkj
  · have hjl : k <
        (rq.set i ⟨(List.getD rq k default).chainInfo, Int.ofNat k⟩).length := by
      simpa using hj
    rw [List.getD_eq_getElem?_getD, List.getElem?_set_self hjl, if_pos rfl]
    rfl
  · rw [List.getD_eq_getElem?_getD, List.getElem?_set_ne (fun h => hkj h.symm),
      if_neg hkj]
    rcases eq_or_ne k i with rfl | hki
    · rw [List.getElem?_set_self hi, if_pos rfl]
      rfl
    · rw [List.getElem?_set_ne (fun h => hki h.symm), if_neg hki,
        List.getD_eq_getElem?_getD]

theorem key_swap (rq : RawQueue) (i j k : Nat)
    (hi : i < rq.length) (hj : j < rq.length) :
    key (rq.swap i j) k = key rq (if k = j then i else if k = i then j else k) := by
  unfold key
  rw [getE_swap rq i j k hi hj]
  rcases eq_or_ne k j with rfl | hkj
  · simp [SyncRequest.height]
  · rcases eq_or_ne k i with rfl | hki
    · simp [hkj, SyncRequest.height]
    · simp [hkj, hki, SyncRequest.height]

/-! ### Permutation lemmas: the heap operations rearrange the slice -/

theorem cons_set_perm {α : Type} (x : α) :
    ∀ (xs : List α) (m : Nat) (h : m < xs.length),
      (xs[m] :: xs.set m x).Perm (x :: xs) := by
  intro xs
  induction xs with
  | nil => intro m h; simp at h
  | cons y ys ih =>
    intro m h
    cases m with
    | zero => simpa using List.Perm.swap x y ys
    | succ m =>
      have h' : m < ys.length := by simpa using h
      have step1 : ((y :: ys)[m + 1] :: (y :: ys).set (m + 1) x).Perm
          (y :: (ys[m] :: ys.set m x)) := by
        simpa using List.Perm.swap y (ys[m]) (ys.set m x)
      exact step1.trans ((List.Perm.cons y (ih m h')).trans (List.Perm.swap x y ys))

theorem set_set_perm {α : Type} :
    ∀ (l : List α) (i j : Nat) (hi : i < l.length) (hj : j < l.length),
      ((l.set i l[j]).set j l[i]).Perm l := by
  intro l
  induction l with
  | nil => intro i j hi hj; simp at hi
  | cons y ys ih =>
    intro i j hi hj
    cases i with
    | zero =>
      cases j with
      | zero => simp
      | succ m =>
        have hm : m < ys.length := by simpa using hj
        simpa using cons_set_perm y ys m hm
    | succ k =>
      cases j with
      | zero =>
        have hk : k < ys.length := by simpa using hi
        simpa using cons_set_perm y ys k hk
      | succ m =>
        have hk : k < ys.length := by simpa using hi
        have hm : m < ys.length := by simpa using hj
        simpa using List.Perm.cons y (ih k m hk hm)

theorem map_plain_swap (rq : RawQueue) (i j : Nat)
    (hi : i < rq.length) (hj : j < rq.length) :
    ((rq.swap i j).map SyncRequest.plain).Perm (rq.map SyncRequest.plain) := by
  have hi' : i < (rq.map SyncRequest.plain).length := by simpa using hi
  have hj' : j < (rq.map SyncRequest.plain).length := by simpa using hj
  have e1 : SyncRequest.plain ⟨(rq.getE j).chainInfo, Int.ofNat j⟩ =
      (rq.map SyncRequest.plain)[j] := by
    rw [plain_mk, getE_eq_getElem rq hj]
    simp [SyncRequest.plain, SyncRequest.head, SyncRequest.height]
  have e2 : SyncRequest.plain ⟨(rq.getE i).chainInfo, Int.ofNat i⟩ =
      (rq.map SyncRequest.plain)[i] := by
    rw [plain_mk, getE_eq_getElem rq hi]
    simp [SyncRequest.plain, SyncRequest.head, SyncRequest.height]
  show (((rq.set i ⟨(rq.getE j).chainInfo, Int.ofNat j⟩).set j
      ⟨(rq.getE i).chainInfo, Int.ofNat i⟩).map SyncRequest.plain).Perm _
  rw [List.map_set, List.map_set, e1, e2]
  exact set_set_perm (rq.map SyncRequest.plain) i j hi' hj'

theorem up_length (rq : RawQueue) (j : Nat) : (up rq j).length = rq.length := by
  induction rq, j using up.induct with
  | case1 rq j i h =>
    rw [up]
    simp only [i] at h
    rw [if_pos h]
  | case2 rq j i h ih =>
    rw [up]
    simp only [i] at h ih
    rw [if_neg h]
    rw [ih, swap_length]

theorem down_length (rq : RawQueue) (i n : Nat) : (down rq i n).length = rq.length := by
  induction rq, i, n using down.induct with
  | case1 rq i n j1 h =>
    rw [down]
    simp only [j1] at h
    rw [if_pos h]
  | case2 rq i n j1 h j hj =>
    rw [down]
    simp only [j1, j] at h hj
    rw [if_neg h, if_pos hj]
  | case3 rq i n j1 h j hj ih =>
    rw [down]
    simp only [j1, j] at h hj ih
    rw [if_neg h, if_neg (by simpa using hj)]
    rw [ih, swap_length]

theorem up_perm (rq : RawQueue) (j : Nat) (hj : j < rq.length) :
    ((up rq j).map SyncRequest.plain).Perm (rq.map SyncRequest.plain) := by
  induction rq, j using up.induct with
  | case1 rq j i h =>
    rw [up]
    simp only [i] at h
    rw [if_pos h]
  | case2 rq j i h ih =>
    rw [up]
    simp only [i] at h ih
    rw [if_neg h]
    have hij : (j - 1) / 2 < rq.length := by omega
    have hswap := map_plain_swap rq ((j - 1) / 2) j hij hj
    have hlt : (j - 1) / 2 < (rq.swap ((j - 1) / 2) j).length := by
      rw [swap_length]; omega
    exact (ih hlt).trans hswap

theorem down_perm (rq : RawQueue) (i n : Nat) (hn : n ≤ rq.length) :
    ((down rq i n).map SyncRequest.plain).Perm (rq.map SyncRequest.plain) := by
  induction rq, i, n using down.induct with
  | case1 rq i n j1 h =>
    rw [down]
    simp only [j1] at h
    rw [if_pos h]
  | case2 rq i n j1 h j hj =>
    rw [down]
    simp only [j1, j] at h hj
    rw [if_neg h, if_pos hj]
  | case3 rq i n j1 h j hj ih =>
    rw [down]
    simp only [j1, j] at h hj ih
    rw [if_neg h, if_neg (by simpa using hj)]
    have hjn : rq.pickChild (2 * i + 1) n < n := by
      unfold RawQueue.pickChild
      split <;> omega
    have hjlen : rq.pickChild (2 * i + 1) n < rq.length := lt_of_lt_of_le hjn hn
    have hilen : i < rq.length := by
      have : i < rq.pickChild (2 * i + 1) n := by
        unfold RawQueue.pickChild
        split <;> omega
      omega
    have hswap := map_plain_swap rq i (rq.pickChild (2 * i + 1) n) hilen hjlen
    have hn' : n ≤ (rq.swap i (rq.pickChild (2 * i + 1) n)).length := by
      rw [swap_length]; exact hn
    exact (ih hn').trans hswap

theorem heapPush_perm (rq : RawQueue) (x : SyncRequest) :
    ((heapPush rq x).map SyncRequest.plain).Perm
      (x.plain :: rq.map SyncRequest.plain) := by
  unfold heapPush RawQueue.push
  have hlen : (rq ++ [{ x with index := Int.ofNat rq.len }]).len - 1 <
      (rq ++ [{ x with index := Int.ofNat rq.len }]).length := by
    simp [RawQueue.len]
  refine (up_perm _ _ hlen).trans ?_
  rw [List.map_append]
  have : SyncRequest.plain { x with index := Int.ofNat rq.len } = x.plain := rfl
  simp only [List.map_cons, List.map_nil, this]
  exact List.perm_append_singleton x.plain (rq.map SyncRequest.plain)

theorem down_stable (rq : RawQueue) (i n : Nat) (hn : n ≤ rq.length) :
    ∀ k, n ≤ k → (down rq i n).getE k = rq.getE k := by
  induction rq, i, n using down.induct with
  | case1 rq i n j1 h =>
    intro k hk
    rw [down]
    simp only [j1] at h
    rw [if_pos h]
  | case2 rq i n j1 h j hj =>
    intro k hk
    rw [down]
    simp only [j1, j] at h hj
    rw [if_neg h, if_pos hj]
  | case3 rq i n j1 h j hj ih =>
    intro k hk
    rw [down]
    simp only [j1, j] at h hj ih
    rw [if_neg h, if_neg (by simpa using hj)]
    have hjn : rq.pickChild (2 * i + 1) n < n := by
      unfold RawQueue.pickChild
      split <;> omega
    have hij : i < rq.pickChild (2 * i + 1) n := by
      unfold RawQueue.pickChild
      split <;> omega
    have hjlen : rq.pickChild (2 * i + 1) n < rq.length := lt_of_lt_of_le hjn hn
    have hilen : i < rq.length := lt_trans hij hjlen
    have hn' : n ≤ (rq.swap i (rq.pickChild (2 * i + 1) n)).length := by
      rw [swap_length]; exact hn
    rw [ih hn' k hk, getE_swap rq _ _ k hilen hjlen,
      if_neg (by omega), if_neg (by omega)]

theorem heapPop_length (rq : RawQueue) :
    (heapPop rq).2.length = rq.length - 1 := by
  unfold heapPop RawQueue.pop
  simp [down_length, swap_length]

theorem heapPop_perm (rq : RawQueue) (h : rq ≠ []) :
    (rq.map SyncRequest.plain).Perm
      ((heapPop rq).1.plain :: (heapPop rq).2.map SyncRequest.plain) := by
  have hpos : 0 < rq.length := List.length_pos.2 h
  have h0 : 0 < rq.length := hpos
  have hn : rq.len - 1 < rq.length := by
    unfold RawQueue.len; omega
  have hperm1 := map_plain_swap rq 0 (rq.len - 1) h0 hn
  have hle : rq.len - 1 ≤ (rq.swap 0 (rq.len - 1)).length := by
    rw [swap_length]; omega
  have hperm2 := down_perm (rq.swap 0 (rq.len - 1)) 0 (rq.len - 1) hle
  set rq₂ := down (rq.swap 0 (rq.len - 1)) 0 (rq.len - 1) with hrq₂
  have hlen₂ : rq₂.length = rq.length := by
    rw [hrq₂, down_length, swap_length]
  have hne₂ : rq₂ ≠ [] := by
    intro hcon
    rw [hcon] at hlen₂
    simp at hlen₂
    omega
  have hsplit : rq₂.dropLast ++ [rq₂.getLast hne₂] = rq₂ :=
    List.dropLast_append_getLast hne₂
  have hlast : (List.getLast? rq₂).getD default = rq₂.getLast hne₂ := by
    rw [List.getLast?_eq_getLast_of_ne_nil hne₂]
    rfl
  have hitem : (heapPop rq).1.plain = (rq₂.getLast hne₂).plain := by
    show SyncRequest.plain
      { (List.getLast? rq₂).getD default with index := -1 } = _
    rw [hlast]
    rfl
  have hrest : (heapPop rq).2 = rq₂.dropLast := rfl
  have hperm3 : (rq₂.map SyncRequest.plain).Perm
      ((rq₂.getLast hne₂).plain :: (rq₂.dropLast.map SyncRequest.plain)) := by
    conv_lhs => rw [← hsplit]
    rw [List.map_append]
    simp
  rw [hitem, hrest]
  exact (hperm1.symm.trans hperm2.symm).trans hperm3

theorem heapPop_root (rq : RawQueue) (h : rq ≠ []) :
    (heapPop rq).1.plain = (rq.getE 0).plain := by
  have hpos : 0 < rq.length := List.length_pos.2 h
  have hn : rq.len - 1 < rq.length := by
    unfold RawQueue.len; omega
  have hle : rq.len - 1 ≤ (rq.swap 0 (rq.len - 1)).length := by
    rw [swap_length]; omega
  set rq₂ := down (rq.swap 0 (rq.len - 1)) 0 (rq.len - 1) with hrq₂
  have hlen₂ : rq₂.length = rq.length := by
    rw [hrq₂, down_length, swap_length]
  have hne₂ : rq₂ ≠ [] := by
    intro hcon
    rw [hcon] at hlen₂
    simp at hlen₂
    omega
  have hlast : (List.getLast? rq₂).getD default = rq₂.getLast hne₂ := by
    rw [List.getLast?_eq_getLast_of_ne_nil hne₂]
    rfl
  have hitem : (heapPop rq).1.plain = (rq₂.getLast hne₂).plain := by
    show SyncRequest.plain
      { (List.getLast? rq₂).getD default with index := -1 } = _
    rw [hlast]
    rfl
  have hb : rq.len - 1 < rq₂.length := by
    rw [hlen₂]; exact hn
  have hgl : rq₂.getLast hne₂ = rq₂.getE (rq.len - 1) := by
    rw [List.getLast_eq_getElem, getE_eq_getElem rq₂ hb]
    congr 1
    rw [hlen₂]
    rfl
  have hstab : rq₂.getE (rq.len - 1) = (rq.swap 0 (rq.len - 1)).getE (rq.len - 1) := by
    rw [hrq₂]
    exact down_stable _ 0 (rq.len - 1) hle (rq.len - 1) le_rfl
  have hswap : (rq.swap 0 (rq.len - 1)).getE (rq.len - 1) =
      ⟨(rq.getE 0).chainInfo, Int.ofNat 0⟩ := by
    rw [getE_swap rq 0 (rq.len - 1) (rq.len - 1) hpos hn, if_pos rfl]
  rw [hitem, hgl, hstab, hswap]
  rfl

/-! ### The heap-order invariant and its preservation by the sift operations -/

/-- Max-heap order on the prefix of size n: every non-root slot is bounded
by its parent slot (k-1)/2. -/
def IsHeapN (rq : RawQueue) (n : Nat) : Prop :=
  ∀ k, 0 < k → k < n → key rq k ≤ key rq ((k - 1) / 2)

/-- Max-heap order on the whole slice. -/
def IsHeap (rq : RawQueue) : Prop := IsHeapN rq rq.length

theorem isHeapN_le_root (rq : RawQueue) (n : Nat) (h : IsHeapN rq n) :
    ∀ k, k < n → key rq k ≤ key rq 0 := by
  intro k
  induction k using Nat.strong_induction_on with
  | _ k ih =>
    intro hk
    rcases Nat.eq_zero_or_pos k with rfl | hk0
    · exact le_refl _
    · have hpar : (k - 1) / 2 < k := by omega
      exact le_trans (h k hk0 hk) (ih _ hpar (lt_trans hpar hk))

theorem less_eq_false_iff (rq : RawQueue) (i j : Nat) :
    rq.less i j = false ↔ key rq i ≤ key rq j := by
  unfold RawQueue.less key
  simp [not_lt]

theorem less_eq_true_iff (rq : RawQueue) (i j : Nat) :
    rq.less i j = true ↔ key rq j < key rq i := by
  unfold RawQueue.less key
  simp

/-- Precondition of `up` at position j: heap order holds everywhere except
possibly on the edge from j to its parent, and the children of j are already
bounded by j's parent (so that moving j's element up cannot break them). -/
def UpOK (rq : RawQueue) (j : Nat) : Prop :=
  (∀ k, 0 < k → k < rq.length → k ≠ j → key rq k ≤ key rq ((k - 1) / 2)) ∧
  (∀ k, k < rq.length → (k - 1) / 2 = j → 0 < j → key rq k ≤ key rq ((j - 1) / 2))

theorem up_isHeap :
    ∀ (rq : RawQueue) (j : Nat), j < rq.length → UpOK rq j → IsHeap (up rq j) := by
  intro rq j
  induction rq, j using up.induct with
  | case1 rq j i h =>
    intro hj hok
    rw [up]
    simp only [i] at h
    rw [if_pos h]
    intro k hk0 hklen
    by_cases hkj : k = j
    · rcases h with h1 | h2
      · exfalso
        omega
      · rw [hkj]
        exact (less_eq_false_iff rq j ((j - 1) / 2)).1 h2
    · exact hok.1 k hk0 hklen hkj
  | case2 rq j i h ih =>
    intro hj hok
    rw [up]
    simp only [i] at h ih
    rw [if_neg h]
    rw [not_or] at h
    obtain ⟨hne, hlessb⟩ := h
    have hless : rq.less j ((j - 1) / 2) = true := by
      cases hb : rq.less j ((j - 1) / 2)
      · exact absurd hb hlessb
      · rfl
    have hlt : key rq ((j - 1) / 2) < key rq j := (less_eq_true_iff rq j _).1 hless
    have hj0 : 0 < j := by
      rcases Nat.eq_zero_or_pos j with rfl | hp
      · exact absurd (by omega : (0 - 1) / 2 = 0) hne
      · exact hp
    have hij : (j - 1) / 2 < j := by omega
    have hilen : (j - 1) / 2 < rq.length := lt_trans hij hj
    have hK : ∀ k, key (rq.swap ((j - 1) / 2) j) k =
        key rq (if k = j then (j - 1) / 2 else if k = (j - 1) / 2 then j else k) :=
      fun k => key_swap rq ((j - 1) / 2) j k hilen hj
    apply ih
    · rw [swap_length]; exact hilen
    constructor
    · -- heap order away from the new hole (j-1)/2
      intro k hk0 hklen hki
      rw [swap_length] at hklen
      rw [hK k, hK ((k - 1) / 2)]
      by_cases hkj : k = j
      · rw [if_pos hkj, if_neg (by omega : ¬((k - 1) / 2 = j)),
          if_pos (by omega : (k - 1) / 2 = (j - 1) / 2)]
        exact le_of_lt hlt
      · rw [if_neg hkj, if_neg hki]
        by_cases hpj : (k - 1) / 2 = j
        · rw [if_pos hpj]
          exact hok.2 k hklen hpj hj0
        · rw [if_neg hpj]
          by_cases hpi : (k - 1) / 2 = (j - 1) / 2
          · rw [if_pos hpi]
            have h1 : key rq k ≤ key rq ((k - 1) / 2) := hok.1 k hk0 hklen hkj
            rw [hpi] at h1
            exact le_trans h1 (le_of_lt hlt)
          · rw [if_neg hpi]
            exact hok.1 k hk0 hklen hkj
    · -- children of the new hole are bounded by its parent
      intro k hklen hpk hi0
      rw [swap_length] at hklen
      have hgj : (((j - 1) / 2) - 1) / 2 ≠ j := by omega
      have hgi : (((j - 1) / 2) - 1) / 2 ≠ (j - 1) / 2 := by omega
      rw [hK k, hK ((((j - 1) / 2) - 1) / 2), if_neg hgj, if_neg hgi]
      by_cases hkj : k = j
      · rw [if_pos hkj]
        exact hok.1 ((j - 1) / 2) hi0 hilen (by omega)
      · rw [if_neg hkj]
        have hki : k ≠ (j - 1) / 2 := by omega
        rw [if_neg hki]
        have hk0 : 0 < k := by omega
        have h1 : key rq k ≤ key rq ((k - 1) / 2) := hok.1 k hk0 hklen hkj
        have h2 : key rq ((j - 1) / 2) ≤ key rq ((((j - 1) / 2) - 1) / 2) :=
          hok.1 ((j - 1) / 2) hi0 hilen (by omega)
        rw [hpk] at h1
        exact le_trans h1 h2

theorem pickChild_lt (rq : RawQueue) (i n : Nat) (h : 2 * i + 1 < n) :
    rq.pickChild (2 * i + 1) n < n := by
  unfold RawQueue.pickChild
  split <;> omega

theorem pickChild_gt (rq : RawQueue) (i n : Nat) :
    i < rq.pickChild (2 * i + 1) n := by
  unfold RawQueue.pickChild
  split <;> omega

theorem pickChild_parent (rq : RawQueue) (i n : Nat) :
    ((rq.pickChild (2 * i + 1) n) - 1) / 2 = i := by
  unfold RawQueue.pickChild
  split <;> omega

theorem pickChild_max (rq : RawQueue) (i n : Nat) :
    ∀ k, (k = 2 * i + 1 ∨ (k = 2 * i + 2 ∧ k < n)) →
      key rq k ≤ key rq (rq.pickChild (2 * i + 1) n) := by
  intro k hk
  unfold RawQueue.pickChild
  by_cases hc : 2 * i + 1 + 1 < n ∧ rq.less (2 * i + 1 + 1) (2 * i + 1) = true
  · rw [if_pos hc]
    have hlt : key rq (2 * i + 1) < key rq (2 * i + 1 + 1) :=
      (less_eq_true_iff rq _ _).1 hc.2
    rcases hk with rfl | ⟨rfl, _⟩
    · exact le_of_lt hlt
    · exact le_refl _
  · rw [if_neg hc]
    rcases hk with rfl | ⟨rfl, hkn⟩
    · exact le_refl _
    · have hc1 : 2 * i + 1 + 1 < n := by omega
      have hc2 : rq.less (2 * i + 1 + 1) (2 * i + 1) = false := by
        cases hb : rq.less (2 * i + 1 + 1) (2 * i + 1)
        · rfl
        · exact absurd ⟨hc1, hb⟩ hc
      exact (less_eq_false_iff rq _ _).1 hc2

/-- Precondition of `down` at position i in the prefix of size n: heap order
holds on every edge not pointing at i, and the children of i are already
bounded by i's parent. -/
def DownOK (rq : RawQueue) (i n : Nat) : Prop :=
  (∀ k, 0 < k → k < n → (k - 1) / 2 ≠ i → key rq k ≤ key rq ((k - 1) / 2)) ∧
  (∀ k, k < n → (k - 1) / 2 = i → 0 < i → key rq k ≤ key rq ((i - 1) / 2))

theorem down_isHeapN :
    ∀ (rq : RawQueue) (i n : Nat), n ≤ rq.length → DownOK rq i n →
      IsHeapN (down rq i n) n := by
  intro rq i n
  induction rq, i, n using down.induct with
  | case1 rq i n j1 h =>
    intro hn hok
    rw [down]
    simp only [j1] at h
    rw [if_pos h]
    intro k hk0 hkn
    by_cases hpi : (k - 1) / 2 = i
    · exfalso
      omega
    · exact hok.1 k hk0 hkn hpi
  | case2 rq i n j1 h j hj =>
    intro hn hok
    rw [down]
    simp only [j1] at h
    simp only [j1, j] at hj
    rw [if_neg h, if_pos hj]
    have hji : key rq (rq.pickChild (2 * i + 1) n) ≤ key rq i :=
      (less_eq_false_iff rq _ _).1 hj
    intro k hk0 hkn
    by_cases hpi : (k - 1) / 2 = i
    · have hkch : k = 2 * i + 1 ∨ (k = 2 * i + 2 ∧ k < n) := by omega
      exact le_trans (pickChild_max rq i n k hkch) (le_trans hji (le_of_eq (by rw [hpi])))
    · exact hok.1 k hk0 hkn hpi
  | case3 rq i n j1 h j hj ih =>
    intro hn hok
    rw [down]
    simp only [j1] at h
    simp only [j1, j] at hj ih
    rw [if_neg h, if_neg (by simpa using hj)]
    have hjlt : rq.less (rq.pickChild (2 * i + 1) n) i = true := by
      cases hb : rq.less (rq.pickChild (2 * i + 1) n) i
      · exact absurd hb (by simpa using hj)
      · rfl
    have hlt : key rq i < key rq (rq.pickChild (2 * i + 1) n) :=
      (less_eq_true_iff rq _ _).1 hjlt
    have hj1n : 2 * i + 1 < n := by omega
    have hjn : rq.pickChild (2 * i + 1) n < n := pickChild_lt rq i n hj1n
    have hij : i < rq.pickChild (2 * i + 1) n := pickChild_gt rq i n
    have hpji : ((rq.pickChild (2 * i + 1) n) - 1) / 2 = i := pickChild_parent rq i n
    have hjlen : rq.pickChild (2 * i + 1) n < rq.length := lt_of_lt_of_le hjn hn
    have hilen : i < rq.length := lt_trans hij hjlen
    have hK : ∀ k, key (rq.swap i (rq.pickChild (2 * i + 1) n)) k =
        key rq (if k = rq.pickChild (2 * i + 1) n then i
          else if k = i then rq.pickChild (2 * i + 1) n else k) :=
      fun k => key_swap rq i (rq.pickChild (2 * i + 1) n) k hilen hjlen
    apply ih
    · rw [swap_length]; exact hn
    set jv := rq.pickChild (2 * i + 1) n with hjv
    constructor
    · -- heap order on edges not pointing at the new hole jv
      intro k hk0 hkn hpj
      rw [hK k, hK ((k - 1) / 2)]
      by_cases hkj : k = jv
      · rw [if_pos hkj, if_neg (by omega : ¬((k - 1) / 2 = jv)),
          if_pos (by omega : (k - 1) / 2 = i)]
        exact le_of_lt hlt
      · rw [if_neg hkj]
        by_cases hki : k = i
        · rw [if_pos hki]
          have hi0 : 0 < i := by omega
          have hpi : (i - 1) / 2 ≠ jv := by omega
          have hpii : (i - 1) / 2 ≠ i := by omega
          rw [if_neg (by omega : ¬((k - 1) / 2 = jv)),
            if_neg (by omega : ¬((k - 1) / 2 = i))]
          have hkey : key rq jv ≤ key rq ((i - 1) / 2) :=
            hok.2 jv hjn hpji hi0
          rw [hki]
          exact hkey
        · rw [if_neg hki]
          by_cases hpi : (k - 1) / 2 = i
          · rw [if_pos hpi, if_neg hpj]
            have hkch : k = 2 * i + 1 ∨ (k = 2 * i + 2 ∧ k < n) := by omega
            exact pickChild_max rq i n k hkch
          · rw [if_neg hpi, if_neg hpj]
            exact hok.1 k hk0 hkn hpi
    · -- children of the new hole jv are bounded by its parent
      intro k hkn hpk hj0
      rw [hK k, hK ((jv - 1) / 2)]
      have hkgt : jv < k := by omega
      have hknei : k ≠ i := by omega
      have hknej : k ≠ jv := by omega
      rw [if_neg hknej, if_neg hknei,
        if_neg (by omega : ¬((jv - 1) / 2 = jv)), if_pos hpji]
      have hk0 : 0 < k := by omega
      have h1 : key rq k ≤ key rq ((k - 1) / 2) :=
        hok.1 k hk0 hkn (by omega : (k - 1) / 2 ≠ i)
      rw [hpk] at h1
      exact h1

theorem getE_append_lt (rq : RawQueue) (l : List SyncRequest) {k : Nat}
    (h : k < rq.length) : RawQueue.getE (rq ++ l) k = rq.getE k := by
  unfold RawQueue.getE
  rw [List.getD_eq_getElem?_getD, List.getD_eq_getElem?_getD,
    List.getElem?_append_left h]

theorem getE_dropLast (l : RawQueue) {k : Nat} (h : k < l.length - 1) :
    RawQueue.getE l.dropLast k = l.getE k := by
  unfold RawQueue.getE
  rw [List.getD_eq_getElem?_getD, List.getD_eq_getElem?_getD,
    List.dropLast_eq_take, List.getElem?_take]
  rw [if_pos h]

theorem heapPush_isHeap (rq : RawQueue) (x : SyncRequest) (h : IsHeap rq) :
    IsHeap (heapPush rq x) := by
  unfold heapPush RawQueue.push
  show IsHeap (up (rq ++ [{ x with index := Int.ofNat rq.len }])
    ((rq ++ [{ x with index := Int.ofNat rq.len }] : RawQueue).len - 1))
  have hlen : (rq ++ [{ x with index := Int.ofNat rq.len }] : RawQueue).len - 1 =
      rq.length := by
    simp [RawQueue.len]
  rw [hlen]
  apply up_isHeap
  · simp
  constructor
  · intro k hk0 hklen hkj
    have hk : k < rq.length := by
      simp at hklen
      omega
    have hp : (k - 1) / 2 < rq.length := by omega
    unfold key
    rw [getE_append_lt rq _ hk, getE_append_lt rq _ hp]
    exact h k hk0 hk
  · intro k hklen hpk hj0
    exfalso
    simp at hklen
    omega

theorem heapPop_isHeap (rq : RawQueue) (h : IsHeap rq) :
    IsHeap (heapPop rq).2 := by
  intro k hk0 hklen
  rw [heapPop_length] at hklen
  have hlenpos : 0 < rq.length := by omega
  have hn : rq.len - 1 < rq.length := by
    unfold RawQueue.len
    omega
  have hle : rq.len - 1 ≤ (rq.swap 0 (rq.len - 1)).length := by
    rw [swap_length]
    omega
  have hdok : DownOK (rq.swap 0 (rq.len - 1)) 0 (rq.len - 1) := by
    constructor
    · intro m hm0 hmn hmp
      have hmlen : m < rq.length := by
        unfold RawQueue.len at hmn
        omega
      have hKm := key_swap rq 0 (rq.len - 1) m hlenpos hn
      have hKp := key_swap rq 0 (rq.len - 1) ((m - 1) / 2) hlenpos hn
      have hmn' : m ≠ rq.len - 1 := by omega
      have hpn : (m - 1) / 2 ≠ rq.len - 1 := by
        unfold RawQueue.len at *
        omega
      rw [hKm, hKp, if_neg hmn', if_neg (by omega : ¬(m = 0)),
        if_neg hpn, if_neg hmp]
      exact h m hm0 hmlen
    · intro m hmn hmp hfalse
      exact absurd hfalse (by omega)
  have hheap₂ := down_isHeapN (rq.swap 0 (rq.len - 1)) 0 (rq.len - 1) hle hdok
  have hlen₂ : (down (rq.swap 0 (rq.len - 1)) 0 (rq.len - 1)).length = rq.length := by
    rw [down_length, swap_length]
  have hkd : k < (down (rq.swap 0 (rq.len - 1)) 0 (rq.len - 1)).length - 1 := by
    rw [hlen₂]
    omega
  have hpd : (k - 1) / 2 < (down (rq.swap 0 (rq.len - 1)) 0 (rq.len - 1)).length - 1 := by
    rw [hlen₂]
    omega
  show key (heapPop rq).2 k ≤ key (heapPop rq).2 ((k - 1) / 2)
  have hsnd : (heapPop rq).2 = (down (rq.swap 0 (rq.len - 1)) 0 (rq.len - 1)).dropLast := rfl
  rw [hsnd]
  unfold key
  rw [getE_dropLast _ hkd, getE_dropLast _ hpd]
  have hkn : k < rq.len - 1 := by
    unfold RawQueue.len
    omega
  exact hheap₂ k hk0 hkn

theorem height_eq_plain_snd (r : SyncRequest) : r.height = r.plain.2 := rfl

theorem heapPop_max (rq : RawQueue) (h : IsHeap rq) (hne : rq ≠ []) :
    ∀ r ∈ rq, r.height ≤ (heapPop rq).1.height := by
  intro r hr
  have hroot : (heapPop rq).1.height = key rq 0 := by
    rw [height_eq_plain_snd, heapPop_root rq hne]
    rfl
  rw [hroot]
  obtain ⟨k, hk, hrk⟩ := List.mem_iff_getElem.1 hr
  have : key rq k = r.height := by
    unfold key
    rw [getE_eq_getElem rq hk, hrk]
  rw [← this]
  exact isHeapN_le_root rq rq.length h k hk

/-! ### The TargetQueue invariant: heap order, duplicate-free heads, and the
membership set in lockstep with the heap -/

theorem heads_eq_map_fst_plain (rq : RawQueue) :
    rq.map SyncRequest.head = (rq.map SyncRequest.plain).map Prod.fst := by
  rw [List.map_map]
  rfl

theorem heapPush_heads_perm (rq : RawQueue) (x : SyncRequest) :
    ((heapPush rq x).map SyncRequest.head).Perm (x.head :: rq.map SyncRequest.head) := by
  rw [heads_eq_map_fst_plain, heads_eq_map_fst_plain]
  exact (heapPush_perm rq x).map Prod.fst

theorem heapPop_heads_perm (rq : RawQueue) (h : rq ≠ []) :
    (rq.map SyncRequest.head).Perm
      ((heapPop rq).1.head :: (heapPop rq).2.map SyncRequest.head) := by
  rw [heads_eq_map_fst_plain, heads_eq_map_fst_plain]
  exact (heapPop_perm rq h).map Prod.fst

/-- Invariant maintained by every reachable TargetQueue: the raw slice is
heap-ordered, no two queued requests share a head, and the membership set
holds exactly the heads of the queued requests. -/
structure TQInv (tq : TargetQueue) : Prop where
  heap : IsHeap tq.q
  nodup : (tq.q.map SyncRequest.head).Nodup
  setPerm : tq.targetSet.Perm (tq.q.map SyncRequest.head)

/-- States reachable from a fresh TargetQueue by Push and Pop only (the
only mutations the source performs). -/
inductive Reachable : TargetQueue → Prop where
  | new : Reachable NewTargetQueue
  | push (tq : TargetQueue) (req : SyncRequest) :
      Reachable tq → Reachable (tq.Push req)
  | pop (tq : TargetQueue) : Reachable tq → Reachable (tq.Pop).2.2

theorem newTargetQueue_q : NewTargetQueue.q = [] := rfl

theorem tqInv_new : TQInv NewTargetQueue := by
  refine ⟨?_, ?_, ?_⟩
  · intro k hk0 hklen
    rw [newTargetQueue_q] at hklen
    simp at hklen
  · rw [newTargetQueue_q]
    exact List.nodup_nil
  · rw [newTargetQueue_q]
    exact List.Perm.refl _

theorem tqInv_push (tq : TargetQueue) (req : SyncRequest) (h : TQInv tq) :
    TQInv (tq.Push req) := by
  unfold TargetQueue.Push
  by_cases hmem : req.head ∈ tq.targetSet
  · rw [if_pos hmem]
    exact h
  · rw [if_neg hmem]
    have hnotin : req.head ∉ tq.q.map SyncRequest.head := by
      intro hcon
      exact hmem (h.setPerm.mem_iff.2 hcon)
    have hperm := heapPush_heads_perm tq.q req
    refine ⟨heapPush_isHeap tq.q req h.heap, ?_, ?_⟩
    · exact hperm.nodup_iff.2 (List.nodup_cons.2 ⟨hnotin, h.nodup⟩)
    · show (mapInsert tq.targetSet req.head).Perm _
      unfold mapInsert
      rw [if_neg hmem]
      exact (h.setPerm.cons req.head).trans hperm.symm

theorem tqInv_pop (tq : TargetQueue) (h : TQInv tq) : TQInv (tq.Pop).2.2 := by
  unfold TargetQueue.Pop
  by_cases hlen : tq.Len = 0
  · rw [if_pos hlen]
    exact h
  · rw [if_neg hlen]
    have hne : tq.q ≠ [] := by
      intro hcon
      apply hlen
      show tq.q.len = 0
      rw [hcon]
      rfl
    have hperm := heapPop_heads_perm tq.q hne
    have hnodup' : ((heapPop tq.q).1.head ::
        (heapPop tq.q).2.map SyncRequest.head).Nodup :=
      hperm.nodup_iff.1 h.nodup
    refine ⟨heapPop_isHeap tq.q h.heap, (List.nodup_cons.1 hnodup').2, ?_⟩
    show (mapDelete tq.targetSet (heapPop tq.q).1.head).Perm _
    unfold mapDelete
    have e1 : (tq.targetSet.erase (heapPop tq.q).1.head).Perm
        ((tq.q.map SyncRequest.head).erase (heapPop tq.q).1.head) :=
      h.setPerm.erase _
    have e2 : ((tq.q.map SyncRequest.head).erase (heapPop tq.q).1.head).Perm
        ((((heapPop tq.q).1.head :: (heapPop tq.q).2.map SyncRequest.head)).erase
          (heapPop tq.q).1.head) :=
      hperm.erase _
    have e3 : (((heapPop tq.q).1.head ::
        (heapPop tq.q).2.map SyncRequest.head)).erase (heapPop tq.q).1.head =
        (heapPop tq.q).2.map SyncRequest.head :=
      List.erase_cons_head _ _
    rw [e3] at e2
    exact e1.trans e2

theorem reachable_inv (tq : TargetQueue) (h : Reachable tq) : TQInv tq := by
  induction h with
  | new => exact tqInv_new
  | push tq req _ ih => exact tqInv_push tq req ih
  | pop tq _ ih => exact tqInv_pop tq ih

/-! ### Behaviour of Pop and of push-all / pop-until-empty driver loops -/

theorem pop_empty (tq : TargetQueue) (h : tq.Len = 0) :
    tq.Pop = (default, false, tq) := by
  unfold TargetQueue.Pop
  rw [if_pos h]

theorem len_ne_zero_ne_nil (tq : TargetQueue) (h : tq.Len ≠ 0) : tq.q ≠ [] := by
  intro hcon
  apply h
  show tq.q.len = 0
  rw [hcon]
  rfl

theorem pop_nonempty (tq : TargetQueue) (h : tq.Len ≠ 0) :
    tq.Pop = ((heapPop tq.q).1, true,
      ⟨(heapPop tq.q).2, mapDelete tq.targetSet (heapPop tq.q).1.head⟩) := by
  unfold TargetQueue.Pop
  rw [if_neg h]

theorem pop_snd_true (tq : TargetQueue) (h : tq.Len ≠ 0) : (tq.Pop).2.1 = true := by
  rw [pop_nonempty tq h]

theorem pop_plain_perm (tq : TargetQueue) (h : tq.Len ≠ 0) :
    (tq.q.map SyncRequest.plain).Perm
      ((tq.Pop).1.plain :: (tq.Pop).2.2.q.map SyncRequest.plain) := by
  rw [pop_nonempty tq h]
  exact heapPop_perm tq.q (len_ne_zero_ne_nil tq h)

theorem pop_len (tq : TargetQueue) (h : tq.Len ≠ 0) :
    (tq.Pop).2.2.Len = tq.Len - 1 := by
  rw [pop_nonempty tq h]
  show (heapPop tq.q).2.length = tq.q.len - 1
  rw [heapPop_length]
  rfl

theorem pop_max (tq : TargetQueue) (hinv : TQInv tq) (h : tq.Len ≠ 0) :
    ∀ r ∈ tq.q, r.height ≤ (tq.Pop).1.height := by
  rw [pop_nonempty tq h]
  exact heapPop_max tq.q hinv.heap (len_ne_zero_ne_nil tq h)

/-- Driver for the spec scenarios: push a whole list of requests in order. -/
def pushAll (tq : TargetQueue) (reqs : List SyncRequest) : TargetQueue :=
  reqs.foldl TargetQueue.Push tq

/-- Driver for the spec scenarios: keep popping while Pop reports success,
with explicit fuel (the popped prefix of length at most fuel). -/
def popAllFuel : Nat → TargetQueue → List SyncRequest
  | 0, _ => []
  | fuel + 1, tq =>
    if (tq.Pop).2.1 then (tq.Pop).1 :: popAllFuel fuel (tq.Pop).2.2 else []

/-- Pop everything: fuel Len suffices since each successful Pop shrinks the
queue by one. -/
def popAll (tq : TargetQueue) : List SyncRequest := popAllFuel tq.Len tq

theorem push_mem (tq : TargetQueue) (req : SyncRequest)
    (h : req.head ∈ tq.targetSet) : tq.Push req = tq := by
  unfold TargetQueue.Push
  rw [if_pos h]

theorem push_notmem (tq : TargetQueue) (req : SyncRequest)
    (h : req.head ∉ tq.targetSet) :
    tq.Push req = ⟨heapPush tq.q req, req.head :: tq.targetSet⟩ := by
  unfold TargetQueue.Push mapInsert
  rw [if_neg h, if_neg h]

theorem len_zero_q_nil (tq : TargetQueue) (h : tq.Len = 0) : tq.q = [] :=
  List.eq_nil_of_length_eq_zero h

theorem popAllFuel_plain_perm :
    ∀ (fuel : Nat) (tq : TargetQueue), tq.Len ≤ fuel →
      ((popAllFuel fuel tq).map SyncRequest.plain).Perm (tq.q.map SyncRequest.plain) := by
  intro fuel
  induction fuel with
  | zero =>
    intro tq hle
    rw [len_zero_q_nil tq (Nat.le_zero.1 hle)]
    exact List.Perm.refl _
  | succ fuel ih =>
    intro tq hle
    by_cases hl : tq.Len = 0
    · rw [len_zero_q_nil tq hl]
      unfold popAllFuel
      rw [pop_empty tq hl]
      simp
    · unfold popAllFuel
      rw [if_pos (pop_snd_true tq hl)]
      have hle' : (tq.Pop).2.2.Len ≤ fuel := by
        rw [pop_len tq hl]
        omega
      have htail := ih (tq.Pop).2.2 hle'
      rw [List.map_cons]
      exact (htail.cons (tq.Pop).1.plain).trans (pop_plain_perm tq hl).symm

theorem popAllFuel_mem_plain :
    ∀ (fuel : Nat) (tq : TargetQueue) (r : SyncRequest),
      r ∈ popAllFuel fuel tq → r.plain ∈ tq.q.map SyncRequest.plain := by
  intro fuel
  induction fuel with
  | zero =>
    intro tq r hr
    simp [popAllFuel] at hr
  | succ fuel ih =>
    intro tq r hr
    unfold popAllFuel at hr
    by_cases hl : tq.Len = 0
    · rw [pop_empty tq hl] at hr
      simp at hr
    · rw [if_pos (pop_snd_true tq hl)] at hr
      have hperm := pop_plain_perm tq hl
      rcases List.mem_cons.1 hr with rfl | htail
      · exact hperm.mem_iff.2 (List.mem_cons_self _ _)
      · exact hperm.mem_iff.2 (List.mem_cons_of_mem _ (ih (tq.Pop).2.2 r htail))

theorem popAllFuel_sorted :
    ∀ (fuel : Nat) (tq : TargetQueue), TQInv tq →
      ((popAllFuel fuel tq).map SyncRequest.height).Sorted (· ≥ ·) := by
  intro fuel
  induction fuel with
  | zero =>
    intro tq _
    simp [popAllFuel]
  | succ fuel ih =>
    intro tq hinv
    unfold popAllFuel
    by_cases hl : tq.Len = 0
    · rw [pop_empty tq hl]
      simp
    · rw [if_pos (pop_snd_true tq hl)]
      rw [List.map_cons, List.sorted_cons]
      constructor
      · intro b hb
        obtain ⟨r, hrmem, hrb⟩ := List.mem_map.1 hb
        have hplain : r.plain ∈ tq.q.map SyncRequest.plain :=
          (pop_plain_perm tq hl).mem_iff.2
            (List.mem_cons_of_mem _ (popAllFuel_mem_plain fuel (tq.Pop).2.2 r hrmem))
        obtain ⟨s, hsmem, hsp⟩ := List.mem_map.1 hplain
        have hsh : s.height = r.height := congrArg Prod.snd hsp
        have hmax := pop_max tq hinv hl s hsmem
        rw [← hrb, ← hsh]
        exact hmax
      · exact ih (tq.Pop).2.2 (tqInv_pop tq hinv)

theorem pushAll_cons (tq : TargetQueue) (r : SyncRequest) (rs : List SyncRequest) :
    pushAll tq (r :: rs) = pushAll (tq.Push r) rs := rfl

theorem pushAll_inv :
    ∀ (reqs : List SyncRequest) (tq : TargetQueue), TQInv tq → TQInv (pushAll tq reqs) := by
  intro reqs
  induction reqs with
  | nil => intro tq h; exact h
  | cons r rs ih =>
    intro tq h
    rw [pushAll_cons]
    exact ih (tq.Push r) (tqInv_push tq r h)

theorem pushAll_reachable :
    ∀ (reqs : List SyncRequest) (tq : TargetQueue),
      Reachable tq → Reachable (pushAll tq reqs) := by
  intro reqs
  induction reqs with
  | nil => intro tq h; exact h
  | cons r rs ih =>
    intro tq h
    rw [pushAll_cons]
    exact ih (tq.Push r) (Reachable.push tq r h)

theorem pushAll_plain_perm :
    ∀ (reqs : List SyncRequest) (tq : TargetQueue),
      (reqs.map SyncRequest.head ++ tq.targetSet).Nodup →
      ((pushAll tq reqs).q.map SyncRequest.plain).Perm
        (reqs.map SyncRequest.plain ++ tq.q.map SyncRequest.plain) := by
  intro reqs
  induction reqs with
  | nil =>
    intro tq _
    exact List.Perm.refl _
  | cons r rs ih =>
    intro tq hnd
    rw [List.map_cons, List.cons_append, List.nodup_cons] at hnd
    have hmem : r.head ∉ tq.targetSet := fun hc =>
      hnd.1 (List.mem_append.2 (Or.inr hc))
    have hpush := push_notmem tq r hmem
    rw [pushAll_cons, hpush]
    have hnd' : (rs.map SyncRequest.head ++ (r.head :: tq.targetSet)).Nodup := by
      have hp : (rs.map SyncRequest.head ++ (r.head :: tq.targetSet)).Perm
          (r.head :: (rs.map SyncRequest.head ++ tq.targetSet)) :=
        List.perm_middle
      exact hp.nodup_iff.2 (List.nodup_cons.2 ⟨hnd.1, hnd.2⟩)
    have hih := ih ⟨heapPush tq.q r, r.head :: tq.targetSet⟩ hnd'
    refine hih.trans ?_
    have h1 : ((heapPush tq.q r).map SyncRequest.plain).Perm
        (r.plain :: tq.q.map SyncRequest.plain) := heapPush_perm tq.q r
    have h2 := h1.append_left (rs.map SyncRequest.plain)
    rw [List.map_cons, List.cons_append]
    exact h2.trans List.perm_middle

/-! ### Queue-level claims -/

theorem heights_eq_map_snd_plain (rq : RawQueue) :
    rq.map SyncRequest.height = (rq.map SyncRequest.plain).map Prod.snd := by
  rw [List.map_map]
  rfl

theorem popAll_pushAll_plain_perm (reqs : List SyncRequest)
    (hnd : (reqs.map SyncRequest.head).Nodup) :
    ((popAll (pushAll NewTargetQueue reqs)).map SyncRequest.plain).Perm
      (reqs.map SyncRequest.plain) := by
  have hndapp : (reqs.map SyncRequest.head ++ NewTargetQueue.targetSet).Nodup := by
    show (reqs.map SyncRequest.head ++ ([] : List String)).Nodup
    rw [List.append_nil]
    exact hnd
  have hpush := pushAll_plain_perm reqs NewTargetQueue hndapp
  have hpop := popAllFuel_plain_perm (pushAll NewTargetQueue reqs).Len
    (pushAll NewTargetQueue reqs) le_rfl
  refine hpop.trans (hpush.trans ?_)
  rw [newTargetQueue_q]
  simp

/-- The four-request scenario of the spec: heights 2, 47, 0, 1 pushed in
that order under four distinct heads. -/
def scenario4 : List SyncRequest :=
  [⟨⟨"a", 2⟩, 0⟩, ⟨⟨"b", 47⟩, 0⟩, ⟨⟨"c", 0⟩, 0⟩, ⟨⟨"d", 1⟩, 0⟩]

/-- Claim C4 (amended): for pushes with pairwise distinct heads, the pops
return exactly the pushed requests in nonincreasing height order — strictly
descending when the heights are pairwise distinct — and the concrete
scenario pushes heights [2, 47, 0, 1], has length 4, pops 47, 2, 1, 0, and
is empty after four pops.  (The unamended "strictly descending" fails when
two distinct heads carry equal heights, see the counterexample.) -/
theorem claim_C4 :
    (∀ reqs : List SyncRequest, (reqs.map SyncRequest.head).Nodup →
      ((popAll (pushAll NewTargetQueue reqs)).map SyncRequest.height).Sorted (· ≥ ·) ∧
      ((popAll (pushAll NewTargetQueue reqs)).map SyncRequest.plain).Perm
        (reqs.map SyncRequest.plain) ∧
      ((reqs.map SyncRequest.height).Nodup →
        ((popAll (pushAll NewTargetQueue reqs)).map SyncRequest.height).Sorted (· > ·))) ∧
    ((pushAll NewTargetQueue scenario4).Len = 4 ∧
      (popAll (pushAll NewTargetQueue scenario4)).map SyncRequest.height
        = [47, 2, 1, 0] ∧
      ((((((pushAll NewTargetQueue scenario4).Pop).2.2.Pop).2.2.Pop).2.2.Pop).2.2).Len
        = 0) := by
  constructor
  · intro reqs hnd
    have hperm := popAll_pushAll_plain_perm reqs hnd
    have hsorted : ((popAll (pushAll NewTargetQueue reqs)).map
        SyncRequest.height).Sorted (· ≥ ·) :=
      popAllFuel_sorted _ _ (pushAll_inv reqs NewTargetQueue tqInv_new)
    refine ⟨hsorted, hperm, ?_⟩
    intro hhnd
    have hhperm : ((popAll (pushAll NewTargetQueue reqs)).map
        SyncRequest.height).Perm (reqs.map SyncRequest.height) := by
      rw [heights_eq_map_snd_plain, heights_eq_map_snd_plain]
      exact hperm.map Prod.snd
    have hnd' : ((popAll (pushAll NewTargetQueue reqs)).map
        SyncRequest.height).Nodup := hhperm.nodup_iff.2 hhnd
    have hpw := List.Pairwise.and hsorted hnd'
    exact hpw.imp (fun hab => lt_of_le_of_ne hab.1 (Ne.symm hab.2))
  · refine ⟨?_, ?_, ?_⟩ <;>
      simp +decide [scenario4, popAll, popAllFuel, pushAll, TargetQueue.Push,
        TargetQueue.Pop, TargetQueue.Len, NewTargetQueue, heapInit, heapInitLoop,
        heapPush, heapPop, up, down, RawQueue.pickChild, RawQueue.push,
        RawQueue.pop, RawQueue.len, RawQueue.less, RawQueue.getE, RawQueue.swap,
        mapInsert, mapDelete, SyncRequest.head, SyncRequest.height,
        SyncRequest.plain]

/-- Claim C4 (counterexample to the claim as stated): two requests with
distinct heads but equal heights are popped as 5, 5, which is not strictly
descending. -/
theorem claim_C4_cex :
    (([⟨⟨"a", 5⟩, 0⟩, ⟨⟨"b", 5⟩, 0⟩] : List SyncRequest).map
      SyncRequest.head).Nodup ∧
    (popAll (pushAll NewTargetQueue [⟨⟨"a", 5⟩, 0⟩, ⟨⟨"b", 5⟩, 0⟩])).map
      SyncRequest.height = [5, 5] ∧
    ¬ ((popAll (pushAll NewTargetQueue [⟨⟨"a", 5⟩, 0⟩, ⟨⟨"b", 5⟩, 0⟩])).map
        SyncRequest.height).Sorted (· > ·) := by
  have hev : (popAll (pushAll NewTargetQueue [⟨⟨"a", 5⟩, 0⟩, ⟨⟨"b", 5⟩, 0⟩])).map
      SyncRequest.height = [5, 5] := by
    simp +decide [popAll, popAllFuel, pushAll, TargetQueue.Push,
      TargetQueue.Pop, TargetQueue.Len, NewTargetQueue, heapInit, heapInitLoop,
      heapPush, heapPop, up, down, RawQueue.pickChild, RawQueue.push,
      RawQueue.pop, RawQueue.len, RawQueue.less, RawQueue.getE, RawQueue.swap,
      mapInsert, mapDelete, SyncRequest.head, SyncRequest.height,
      SyncRequest.plain]
  refine ⟨by decide, hev, ?_⟩
  rw [hev]
  decide

/-- Claim C4 witness: the amended general statement applied to a concrete
two-request input with distinct heads and distinct heights. -/
theorem claim_C4_witness :
    (([⟨⟨"a", 7⟩, 0⟩, ⟨⟨"b", 3⟩, 0⟩] : List SyncRequest).map
      SyncRequest.head).Nodup ∧
    ((popAll (pushAll NewTargetQueue [⟨⟨"a", 7⟩, 0⟩, ⟨⟨"b", 3⟩, 0⟩])).map
      SyncRequest.height).Sorted (· ≥ ·) :=
  ⟨by decide, (claim_C4.1 [⟨⟨"a", 7⟩, 0⟩, ⟨⟨"b", 3⟩, 0⟩] (by decide)).1⟩

/-- Claim C5: every reachable TargetQueue has as many heap entries as
membership-set entries, and no two heap entries share a head. -/
theorem claim_C5 :
    ∀ tq : TargetQueue, Reachable tq →
      tq.q.length = tq.targetSet.length ∧ (tq.q.map SyncRequest.head).Nodup := by
  intro tq hreach
  have hinv := reachable_inv tq hreach
  refine ⟨?_, hinv.nodup⟩
  have := hinv.setPerm.length_eq
  rw [List.length_map] at this
  exact this.symm

/-- Claim C5 witness: the invariant evaluated on the concrete reachable
queue obtained by one push onto a fresh queue. -/
theorem claim_C5_witness :
    Reachable (NewTargetQueue.Push ⟨⟨"a", 1⟩, 0⟩) ∧
    ((NewTargetQueue.Push ⟨⟨"a", 1⟩, 0⟩).q.length =
      (NewTargetQueue.Push ⟨⟨"a", 1⟩, 0⟩).targetSet.length ∧
     ((NewTargetQueue.Push ⟨⟨"a", 1⟩, 0⟩).q.map SyncRequest.head).Nodup) :=
  ⟨Reachable.push NewTargetQueue _ Reachable.new,
   claim_C5 _ (Reachable.push NewTargetQueue _ Reachable.new)⟩

/-- Claim C6: pushing a request, then a second request with the same head,
is a no-op that changes no state and keeps the length at 1; after popping
that head, pushing it again restores the length to 1. -/
theorem claim_C6 :
    (NewTargetQueue.Push ⟨⟨"a", 3⟩, 0⟩).Len = 1 ∧
    (NewTargetQueue.Push ⟨⟨"a", 3⟩, 0⟩).Push ⟨⟨"a", 3⟩, 99⟩
      = NewTargetQueue.Push ⟨⟨"a", 3⟩, 0⟩ ∧
    (((NewTargetQueue.Push ⟨⟨"a", 3⟩, 0⟩).Pop).2.2).Len = 0 ∧
    ((((NewTargetQueue.Push ⟨⟨"a", 3⟩, 0⟩).Pop).2.2).Push ⟨⟨"a", 3⟩, 99⟩).Len = 1 := by
  refine ⟨?_, ?_, ?_, ?_⟩ <;>
    simp +decide [TargetQueue.Push, TargetQueue.Pop, TargetQueue.Len,
      NewTargetQueue, heapInit, heapInitLoop, heapPush, heapPop, up, down,
      RawQueue.pickChild, RawQueue.push, RawQueue.pop, RawQueue.len,
      RawQueue.less, RawQueue.getE, RawQueue.swap, mapInsert, mapDelete,
      SyncRequest.head, SyncRequest.height]

/-- Claim C7: Pop on an empty queue returns the zero request with an
explicit false flag (no fault, same queue); on a non-empty reachable queue
it returns success, the returned request carries a maximal height, it was an
element of the queue, and the remaining queue is the rest (the returned
request is removed). -/
theorem claim_C7 :
    (∀ tq : TargetQueue, tq.Len = 0 → tq.Pop = (default, false, tq)) ∧
    (∀ tq : TargetQueue, Reachable tq → tq.Len ≠ 0 →
      (tq.Pop).2.1 = true ∧
      (∀ r ∈ tq.q, r.height ≤ (tq.Pop).1.height) ∧
      (tq.Pop).1.plain ∈ tq.q.map SyncRequest.plain ∧
      (tq.q.map SyncRequest.plain).Perm
        ((tq.Pop).1.plain :: (tq.Pop).2.2.q.map SyncRequest.plain)) := by
  constructor
  · exact pop_empty
  · intro tq hreach hlen
    have hinv := reachable_inv tq hreach
    have hperm := pop_plain_perm tq hlen
    exact ⟨pop_snd_true tq hlen, pop_max tq hinv hlen,
      hperm.mem_iff.2 (List.mem_cons_self _ _), hperm⟩

/-- Claim C7 witness: both branches at concrete queues — the empty fresh
queue, and the reachable one-element queue. -/
theorem claim_C7_witness :
    NewTargetQueue.Len = 0 ∧
    NewTargetQueue.Pop = (default, false, NewTargetQueue) ∧
    Reachable (NewTargetQueue.Push ⟨⟨"a", 1⟩, 0⟩) ∧
    (NewTargetQueue.Push ⟨⟨"a", 1⟩, 0⟩).Len ≠ 0 ∧
    ((NewTargetQueue.Push ⟨⟨"a", 1⟩, 0⟩).Pop).2.1 = true := by
  have h0 : NewTargetQueue.Len = 0 := rfl
  have hr : Reachable (NewTargetQueue.Push ⟨⟨"a", 1⟩, 0⟩) :=
    Reachable.push NewTargetQueue _ Reachable.new
  have hne : (NewTargetQueue.Push ⟨⟨"a", 1⟩, 0⟩).Len ≠ 0 := by
    simp +decide [TargetQueue.Push, TargetQueue.Len, NewTargetQueue, heapInit,
      heapInitLoop, heapPush, up, RawQueue.push, RawQueue.len, RawQueue.less,
      RawQueue.getE, RawQueue.swap, mapInsert, SyncRequest.head]
  exact ⟨h0, claim_C7.1 NewTargetQueue h0,
    hr, hne, (claim_C7.2 _ hr hne).1⟩

/-- Claim C10: pushing any finite list of requests with pairwise distinct
heads into a fresh queue and popping until empty yields exactly the pushed
heads — no duplicates, no omissions. -/
theorem claim_C10 :
    ∀ reqs : List SyncRequest, (reqs.map SyncRequest.head).Nodup →
      ((popAll (pushAll NewTargetQueue reqs)).map SyncRequest.head).Perm
        (reqs.map SyncRequest.head) := by
  intro reqs hnd
  rw [heads_eq_map_fst_plain, heads_eq_map_fst_plain]
  exact (popAll_pushAll_plain_perm reqs hnd).map Prod.fst

/-- Claim C10 witness: the head-set preservation applied to a concrete
three-request input. -/
theorem claim_C10_witness :
    (([⟨⟨"a", 1⟩, 0⟩, ⟨⟨"b", 5⟩, 0⟩, ⟨⟨"c", 3⟩, 0⟩] : List SyncRequest).map
      SyncRequest.head).Nodup ∧
    ((popAll (pushAll NewTargetQueue
        [⟨⟨"a", 1⟩, 0⟩, ⟨⟨"b", 5⟩, 0⟩, ⟨⟨"c", 3⟩, 0⟩])).map SyncRequest.head).Perm
      (([⟨⟨"a", 1⟩, 0⟩, ⟨⟨"b", 5⟩, 0⟩, ⟨⟨"c", 3⟩, 0⟩] : List SyncRequest).map
        SyncRequest.head) :=
  ⟨by decide, claim_C10 [⟨⟨"a", 1⟩, 0⟩, ⟨⟨"b", 5⟩, 0⟩, ⟨⟨"c", 3⟩, 0⟩] (by decide)⟩

/-! ### The dispatcher loop

The Go loop in Dispatcher.Start runs in a single goroutine; each iteration
is modelled as a pure step function.  Channel interactions become explicit
inputs: the non-blocking control-channel read is an Option, the non-blocking
production batch (first receive plus drainProduced) is a list, and the value
obtained at the idle blocking receive is a separate field, consumed only
when the step actually blocks there.  Side effects (calling a registered
callback, invoking the Syncer, logging) are recorded as events; the Syncer
itself is an oracle telling which requests fail. -/

/-- The uint64 modulus: syncReqCount and the callback targets are uint64 in
Go, and the source comments that overflows are not handled. -/
def w64 : Nat := 2 ^ 64

/-- Source `onProcessedCountCb`: a callback (identified here by a number,
since firing is the only observable action of the Go func()), the requested
count n, and the baseline `start` stamped at registration. -/
structure OnProcessedCountCb where
  cb : Nat
  n : Nat
  start : Nat
  deriving DecidableEq, Repr

instance : Inhabited OnProcessedCountCb := ⟨⟨0, 0, 0⟩⟩

/-- Observable actions of one loop iteration. -/
inductive Event where
  | fired (cb : Nat)
  | syncCall (req : SyncRequest) (isCatchUp : Bool)
  | logSyncErr
  | logUnknownCtrl
  deriving DecidableEq, Repr

/-- A value received on the control channel (chan interface{} in Go):
either the one known command, or a value of any type the switch in
receiveCtrl does not know. -/
inductive CtrlMsg where
  | opcCb (msg : OnProcessedCountCb)
  | other
  deriving DecidableEq, Repr

/-- The dispatcher state owned by the loop goroutine: the target queue, the
pending callbacks, the processed counter, and the request stashed by the
idle blocking receive (`last` in the source). -/
structure DispState where
  targetQ : TargetQueue
  onProcessedCountCbs : List OnProcessedCountCb
  syncReqCount : Nat
  last : Option SyncRequest

/-- Source `NewDispatcher`: fresh queue, no callbacks, zero counter (the
Go zero value of syncReqCount), nothing stashed. -/
def NewDispatcher : DispState :=
  { targetQ := NewTargetQueue, onProcessedCountCbs := [], syncReqCount := 0,
    last := none }

/-- Source `RegisterOnProcessedCount`: the control message it sends, with
the Go zero value in `start` (the loop stamps the real baseline). -/
def RegisterOnProcessedCount (count : Nat) (cb : Nat) : CtrlMsg :=
  CtrlMsg.opcCb { cb := cb, n := count, start := 0 }

/-- The firing test of `maybeFireCbs`: `opcCb.start+opcCb.n ==
d.syncReqCount`, with uint64 wraparound on the addition. -/
def cbReady (c : OnProcessedCountCb) (count : Nat) : Bool :=
  (c.start + c.n) % w64 == count

/-- The `removedIdxs` slice that `maybeFireCbs` builds: the indices of the
callbacks that fire this cycle.  The source computes it and then never uses
it. -/
def removedIdxs (cbs : List OnProcessedCountCb) (count : Nat) : List Nat :=
  (List.range cbs.length).filter (fun i => cbReady (cbs.getD i default) count)

/-- The cb() invocations performed by the loop in `maybeFireCbs`, in list
order. -/
def fireEvents (cbs : List OnProcessedCountCb) (count : Nat) : List Event :=
  (cbs.filter (fun c => cbReady c count)).map (fun c => Event.fired c.cb)

/-- Source `maybeFireCbs`: fires every registered callback whose
`start + n` equals the current counter.  The loop records each firing index
in `removedIdxs`, but that slice is discarded and `d.onProcessedCountCbs`
is never written, so the state comes back unchanged. -/
def maybeFireCbs (st : DispState) : DispState × List Event :=
  (st, fireEvents st.onProcessedCountCbs st.syncReqCount)

/-- Source `receiveCtrl`: the type switch.  A processed-count callback gets
its baseline stamped with the current counter and is appended; any other
value is logged and ignored. -/
def receiveCtrl (st : DispState) : CtrlMsg → DispState × List Event
  | CtrlMsg.opcCb msg =>
      ({ st with onProcessedCountCbs :=
          st.onProcessedCountCbs ++ [{ msg with start := st.syncReqCount }] }, [])
  | CtrlMsg.other => (st, [Event.logUnknownCtrl])

/-- The non-blocking control select of the loop: apply receiveCtrl when a
command is pending, otherwise do nothing. -/
def ctrlStep (st : DispState) : Option CtrlMsg → DispState × List Event
  | some c => receiveCtrl st c
  | none => (st, [])

/-- The requests the loop re-injects from a previous idle wait. -/
def pendingLast : Option SyncRequest → List SyncRequest
  | some r => [r]
  | none => []

/-- The environment of one completed loop iteration: whether the context
was cancelled, the pending control command (if any), the production batch
read without blocking, and the request that arrives if the loop blocks
idle. -/
structure CycleInput where
  cancelled : Bool
  ctrl : Option CtrlMsg
  produced : List SyncRequest
  blockingNext : SyncRequest

/-- The queue as it stands at the Pop of the loop body: the stashed request
and the freshly produced batch pushed onto the target queue (the control
step never touches the queue). -/
def midQueue (inp : CycleInput) (st : DispState) : TargetQueue :=
  (pendingLast st.last ++ inp.produced).foldl TargetQueue.Push st.targetQ

/-- One iteration of the loop body of `Dispatcher.Start`, in source order:
fire ready callbacks, check cancellation, handle one control command,
gather production (stashed request first), push everything, then either pop
and run the Syncer (counting the attempt whether or not it errors) or block
for the next production item and stash it.  Returns the new state, the
events, and whether the loop continues. -/
def cycleStep (errF : SyncRequest → Bool) (inp : CycleInput) (st : DispState) :
    DispState × List Event × Bool :=
  let fire := maybeFireCbs st
  if inp.cancelled then (fire.1, fire.2, false)
  else
    let ctrl := ctrlStep fire.1 inp.ctrl
    let produced := pendingLast ctrl.1.last ++ inp.produced
    let st2 := { ctrl.1 with
      last := none,
      targetQ := produced.foldl TargetQueue.Push ctrl.1.targetQ }
    let p := st2.targetQ.Pop
    if p.2.1 then
      ({ st2 with targetQ := p.2.2, syncReqCount := (st2.syncReqCount + 1) % w64 },
       fire.2 ++ ctrl.2 ++ [Event.syncCall p.1 true] ++
         (if errF p.1 then [Event.logSyncErr] else []), true)
    else
      ({ st2 with last := some inp.blockingNext }, fire.2 ++ ctrl.2, true)

/-- Run the loop over a list of cycle environments, stopping when a cycle
reports cancellation, concatenating all events. -/
def runCycles (errF : SyncRequest → Bool) :
    List CycleInput → DispState → DispState × List Event
  | [], st => (st, [])
  | inp :: rest, st =>
    let r := cycleStep errF inp st
    if r.2.2 then
      let r' := runCycles errF rest r.1
      (r'.1, r.2.1 ++ r'.2)
    else (r.1, r.2.1)

/-- Recognizer for Syncer invocations among the events. -/
def isSyncCallEv : Event → Bool
  | Event.syncCall _ _ => true
  | _ => false

/-! ### Dispatcher-level claims -/

/-- Syncer oracle that never fails. -/
def errNone : SyncRequest → Bool := fun _ => false

/-- A run exhibiting the missing removal of fired callbacks: cycle 1
registers a callback with n = 1 at counter 0 and processes one request;
cycle 2 fires the callback (counter 1) and then goes idle, stashing the
next arrival; cycle 3 starts with the counter still at 1 and fires the same
callback again. -/
def c1Inputs : List CycleInput :=
  [ { cancelled := false, ctrl := some (RegisterOnProcessedCount 1 7),
      produced := [⟨⟨"a", 1⟩, 0⟩], blockingNext := ⟨⟨"a", 1⟩, 0⟩ },
    { cancelled := false, ctrl := none, produced := [],
      blockingNext := ⟨⟨"b", 2⟩, 0⟩ },
    { cancelled := false, ctrl := none, produced := [],
      blockingNext := ⟨⟨"b", 2⟩, 0⟩ } ]

/-- Claim C1 (the code violates the exactly-once claim): in the run
`c1Inputs` a single callback registered once with n = 1 fires twice — the
counter reaches baseline + 1 = 1 in cycle 2, the loop then blocks idle
without processing anything, and cycle 3 re-enters maybeFireCbs with the
counter still equal to the target, firing the never-removed callback a
second time. -/
theorem claim_C1 :
    (runCycles errNone c1Inputs NewDispatcher).2.count (Event.fired 7) = 2 ∧
    (runCycles errNone c1Inputs NewDispatcher).1.syncReqCount = 2 := by
  constructor <;>
    simp +decide [c1Inputs, errNone, runCycles, cycleStep, maybeFireCbs,
      fireEvents, cbReady, receiveCtrl, ctrlStep, pendingLast, w64,
      RegisterOnProcessedCount, NewDispatcher, TargetQueue.Push,
      TargetQueue.Pop, TargetQueue.Len, NewTargetQueue, heapInit, heapInitLoop,
      heapPush, heapPop, up, down, RawQueue.pickChild, RawQueue.push,
      RawQueue.pop, RawQueue.len, RawQueue.less, RawQueue.getE, RawQueue.swap,
      mapInsert, mapDelete, SyncRequest.head, SyncRequest.height]

/-- Dispatcher state with a single pending callback (id 7, n 3, baseline 5)
and the given counter, used to exercise the firing check. -/
def c2State (count : Nat) : DispState :=
  { targetQ := NewTargetQueue
    onProcessedCountCbs := [⟨7, 3, 5⟩]
    syncReqCount := count
    last := none }

/-- Claim C2 (counterexample to the claim as stated): a callback with
baseline 5 and n = 3 is not classified ready at counter 9, although
9 is strictly greater than baseline + n = 8 — the source test is exact
equality, not reached-or-passed. -/
theorem claim_C2_cex :
    (5 : Nat) + 3 < 9 ∧
    cbReady ⟨7, 3, 5⟩ 9 = false ∧
    (maybeFireCbs (c2State 9)).2 = [] := by
  refine ⟨by decide, by decide, ?_⟩
  simp [maybeFireCbs, fireEvents, cbReady, w64, c2State]

/-- Claim C2 (amended): the firing check classifies a pending callback as
ready exactly when the processed counter equals (baseline + n) mod 2^64;
in particular, a counter strictly greater than an un-wrapped baseline + n
does not fire it. -/
theorem claim_C2 :
    ∀ (st : DispState) (c : OnProcessedCountCb),
      st.onProcessedCountCbs = [c] →
      ((maybeFireCbs st).2 =
        if (c.start + c.n) % w64 = st.syncReqCount then [Event.fired c.cb]
        else []) ∧
      (c.start + c.n < w64 → c.start + c.n < st.syncReqCount →
        (maybeFireCbs st).2 = []) := by
  intro st c hcbs
  constructor
  · show fireEvents st.onProcessedCountCbs st.syncReqCount = _
    rw [hcbs]
    unfold fireEvents cbReady
    by_cases h : (c.start + c.n) % w64 = st.syncReqCount
    · rw [if_pos h]
      simp [h]
    · rw [if_neg h]
      simp [h]
  · intro h1 h2
    show fireEvents st.onProcessedCountCbs st.syncReqCount = []
    rw [hcbs]
    unfold fireEvents cbReady
    have hne : (c.start + c.n) % w64 ≠ st.syncReqCount := by
      rw [Nat.mod_eq_of_lt h1]
      omega
    simp [hne]

/-- Claim C2 witness: the amended statement applied to the concrete pending
callback (baseline 5, n 3, id 7) at counters 8 (fires) and 9 (does not). -/
theorem claim_C2_witness :
    ((c2State 8).onProcessedCountCbs = [⟨7, 3, 5⟩]) ∧
    (maybeFireCbs (c2State 8)).2
      = (if ((5 : Nat) + 3) % w64 = 8 then [Event.fired 7] else []) ∧
    ((5 : Nat) + 3 < w64 ∧ (5 : Nat) + 3 < 9) ∧
    (maybeFireCbs (c2State 9)).2 = [] :=
  ⟨rfl,
   (claim_C2 (c2State 8) ⟨7, 3, 5⟩ rfl).1,
   ⟨by decide, by decide⟩,
   (claim_C2 (c2State 9) ⟨7, 3, 5⟩ rfl).2 (by decide) (by decide)⟩

/-- Claim C3: maybeFireCbs never applies the removal indices it computes —
the dispatcher state, in particular the pending-callback list, is returned
unchanged, so a callback stays registered after it has fired. -/
theorem claim_C3 :
    ∀ st : DispState,
      (maybeFireCbs st).1.onProcessedCountCbs = st.onProcessedCountCbs ∧
      (maybeFireCbs st).1 = st :=
  fun _ => ⟨rfl, rfl⟩

/-- Claim C9: a processed-count-callback command is appended to the pending
list with its baseline stamped from the counter at receipt time; any other
control value is logged and ignored with the state unchanged; and an
unrecognized command never aborts the loop. -/
theorem claim_C9 :
    (∀ (st : DispState) (msg : OnProcessedCountCb),
      receiveCtrl st (CtrlMsg.opcCb msg) =
        ({ st with onProcessedCountCbs := st.onProcessedCountCbs ++
            [{ cb := msg.cb, n := msg.n, start := st.syncReqCount }] }, [])) ∧
    (∀ st : DispState,
      receiveCtrl st CtrlMsg.other = (st, [Event.logUnknownCtrl])) ∧
    (∀ (errF : SyncRequest → Bool) (inp : CycleInput) (st : DispState),
      inp.cancelled = false → inp.ctrl = some CtrlMsg.other →
      (cycleStep errF inp st).2.2 = true) := by
  refine ⟨fun st msg => rfl, fun st => rfl, ?_⟩
  intro errF inp st hc _hctrl
  unfold cycleStep
  rw [hc]
  simp only [Bool.false_eq_true, if_false]
  split
  · rfl
  · rfl

/-- Cycle environment delivering only an unrecognized control value. -/
def c9Input : CycleInput :=
  { cancelled := false
    ctrl := some CtrlMsg.other
    produced := []
    blockingNext := ⟨⟨"a", 1⟩, 0⟩ }

/-- Claim C9 witness: an unrecognized control value in a concrete
non-cancelled cycle leaves the loop running. -/
theorem claim_C9_witness :
    c9Input.cancelled = false ∧ c9Input.ctrl = some CtrlMsg.other ∧
    (cycleStep errNone c9Input NewDispatcher).2.2 = true :=
  ⟨rfl, rfl, claim_C9.2.2 errNone c9Input NewDispatcher rfl rfl⟩

theorem ctrlStep_targetQ (st : DispState) (o : Option CtrlMsg) :
    (ctrlStep st o).1.targetQ = st.targetQ := by
  cases o with
  | none => rfl
  | some c => cases c <;> rfl

theorem ctrlStep_events (st : DispState) (o : Option CtrlMsg) :
    (ctrlStep st o).2 = [] ∨ (ctrlStep st o).2 = [Event.logUnknownCtrl] := by
  cases o with
  | none => exact Or.inl rfl
  | some c =>
    cases c with
    | opcCb msg => exact Or.inl rfl
    | other => exact Or.inr rfl

theorem filter_fired_events (l : List OnProcessedCountCb) :
    (l.map (fun c => Event.fired c.cb)).filter isSyncCallEv = [] := by
  induction l with
  | nil => rfl
  | cons c cs ih =>
    simp only [List.map_cons, List.filter_cons]
    rw [if_neg (by simp [isSyncCallEv])]
    exact ih

theorem fireEvents_filter (cbs : List OnProcessedCountCb) (count : Nat) :
    (fireEvents cbs count).filter isSyncCallEv = [] :=
  filter_fired_events _

theorem ctrlStep_filter (st : DispState) (o : Option CtrlMsg) :
    (ctrlStep st o).2.filter isSyncCallEv = [] := by
  rcases ctrlStep_events st o with h | h <;> rw [h] <;> rfl

/-- One non-cancelled loop iteration, written with the Pop of the
explicitly named intermediate queue. -/
theorem cycleStep_eq (errF : SyncRequest → Bool) (inp : CycleInput)
    (st : DispState) (hc : inp.cancelled = false) :
    cycleStep errF inp st =
      (let ctrl := ctrlStep st inp.ctrl
       let p := (midQueue inp st).Pop
       if p.2.1 then
         ({ targetQ := p.2.2
            onProcessedCountCbs := ctrl.1.onProcessedCountCbs
            syncReqCount := (st.syncReqCount + 1) % w64
            last := none },
          fireEvents st.onProcessedCountCbs st.syncReqCount ++ ctrl.2 ++
            [Event.syncCall p.1 true] ++
            (if errF p.1 then [Event.logSyncErr] else []), true)
       else
         ({ targetQ := midQueue inp st
            onProcessedCountCbs := ctrl.1.onProcessedCountCbs
            syncReqCount := st.syncReqCount
            last := some inp.blockingNext },
          fireEvents st.onProcessedCountCbs st.syncReqCount ++ ctrl.2,
          true)) := by
  rcases inp with ⟨cancelled, ctrlo, produced, bnext⟩
  simp only at hc
  subst hc
  rcases ctrlo with _ | c
  · rfl
  · cases c <;> rfl

/-- Claim C8: in a non-cancelled cycle whose intermediate queue is
non-empty, the Syncer is invoked exactly once, with the popped request and
isCatchUp true; the counter is incremented by one whether or not the Syncer
errors; the popped request is not re-queued; the loop continues; and an
error only adds a log event. -/
theorem claim_C8 :
    ∀ (errF : SyncRequest → Bool) (inp : CycleInput) (st : DispState),
      inp.cancelled = false →
      (midQueue inp st).Len ≠ 0 →
      ((cycleStep errF inp st).2.1.filter isSyncCallEv
        = [Event.syncCall ((midQueue inp st).Pop).1 true]) ∧
      (cycleStep errF inp st).1.syncReqCount = (st.syncReqCount + 1) % w64 ∧
      (cycleStep errF inp st).1.targetQ = ((midQueue inp st).Pop).2.2 ∧
      (cycleStep errF inp st).1.last = none ∧
      (cycleStep errF inp st).2.2 = true ∧
      (errF ((midQueue inp st).Pop).1 = true →
        Event.logSyncErr ∈ (cycleStep errF inp st).2.1) := by
  intro errF inp st hc hne
  have hpop : ((midQueue inp st).Pop).2.1 = true := pop_snd_true _ hne
  rw [cycleStep_eq errF inp st hc]
  simp only [hpop, if_true]
  refine ⟨?_, by trivial, by trivial, by trivial, by trivial, ?_⟩
  · rw [List.filter_append, List.filter_append, List.filter_append,
      fireEvents_filter, ctrlStep_filter]
    have h1 : ([Event.syncCall ((midQueue inp st).Pop).1 true]).filter isSyncCallEv
        = [Event.syncCall ((midQueue inp st).Pop).1 true] := rfl
    rw [h1]
    by_cases herr : errF ((midQueue inp st).Pop).1
    · rw [if_pos herr]
      rfl
    · rw [if_neg herr]
      rfl
  · intro herr
    rw [if_pos herr]
    simp

/-- Claim C8 witness: a concrete non-cancelled cycle producing one request
to a fresh dispatcher, with a Syncer that errors on everything — the
request is dispatched once and the counter moves from 0 to 1. -/
theorem claim_C8_witness :
    ({ cancelled := false, ctrl := none, produced := [⟨⟨"a", 1⟩, 0⟩],
       blockingNext := ⟨⟨"a", 1⟩, 0⟩ } : CycleInput).cancelled = false ∧
    (midQueue
      { cancelled := false, ctrl := none, produced := [⟨⟨"a", 1⟩, 0⟩],
        blockingNext := ⟨⟨"a", 1⟩, 0⟩ } NewDispatcher).Len ≠ 0 ∧
    (cycleStep (fun _ => true)
      { cancelled := false, ctrl := none, produced := [⟨⟨"a", 1⟩, 0⟩],
        blockingNext := ⟨⟨"a", 1⟩, 0⟩ } NewDispatcher).1.syncReqCount
      = (0 + 1) % w64 := by
  have hne : (midQueue
      { cancelled := false, ctrl := none, produced := [⟨⟨"a", 1⟩, 0⟩],
        blockingNext := ⟨⟨"a", 1⟩, 0⟩ } NewDispatcher).Len ≠ 0 := by
    simp +decide [midQueue, pendingLast, NewDispatcher, TargetQueue.Push,
      TargetQueue.Len, NewTargetQueue, heapInit, heapInitLoop, heapPush, up,
      RawQueue.push, RawQueue.len, RawQueue.less, RawQueue.getE, RawQueue.swap,
      mapInsert, SyncRequest.head]
  exact ⟨rfl, hne,
    (claim_C8 (fun _ => true) _ NewDispatcher rfl hne).2.1⟩

end Syncer
